import Mathlib

/-!
# Verification of the `arf` interactive review session (src/main.rs)

A shallow embedding of the core of the `arf` tool: the commit catalog built by
`cmd_browse`, the changeset-line classifier in `App::update_diff`, and the
session state machine (`App::next`, `App::previous`, `App::toggle_focus`,
`App::toggle_diff`, `App::page_down`, `App::page_up`, and the quit handler in
`cmd_browse`'s event loop).

External collaborators (the `git` subprocess calls and the filesystem reads of
`.arf/records`) are modelled as explicit inputs: the history resolver, the
annotation store contents in directory-read order, and the changeset fetcher.
-/

namespace Arf

/-! ## Character-sequence prefixes

`isPre p s` embeds Rust's `str::starts_with`: it decides whether the character
list `p` is a prefix of the character list `s`. -/

def isPre : List Char → List Char → Bool
  | [], _ => true
  | _ :: _, [] => false
  | a :: as, b :: bs => decide (a = b) && isPre as bs

/-- Embedding of Rust `s.starts_with(p)` on strings. -/
def startsWithChars (s p : String) : Bool :=
  isPre p.data s.data

/-- Lexicographic comparison of character sequences. For strings this is the
order Rust's `str::cmp` induces (UTF-8 byte order coincides with code-point
order), the sort key order of `a.timestamp.cmp(&b.timestamp)`. -/
def charListLe : List Char → List Char → Bool
  | [], _ => true
  | _ :: _, [] => false
  | a :: as, b :: bs => if a = b then charListLe as bs else decide (a < b)

/-- `tsLe a b` means the string `a` is at most `b` in Rust string order. -/
def tsLe (a b : String) : Bool :=
  charListLe a.data b.data

/-! ## Rust `str::lines`

`rustLines` embeds the `content.lines()` iteration: the text is split at every
newline, a trailing carriage return is removed from every newline-terminated
segment, and the final empty segment produced by a trailing newline is
dropped. -/

/-- Split a character sequence at every occurrence of the separator `c`,
keeping empty segments (the behaviour of splitting at `\n`). -/
def splitOnChar (c : Char) : List Char → List (List Char)
  | [] => [[]]
  | a :: as =>
    if a = c then [] :: splitOnChar c as
    else
      match splitOnChar c as with
      | [] => [[a]]
      | l :: ls => (a :: l) :: ls

/-- Remove one trailing carriage return (segments terminated by a newline in
Rust's `lines()` have a trailing `\r` stripped). -/
def stripCR (l : List Char) : List Char :=
  if l.getLast? = some '\r' then l.dropLast else l

def rustLinesChars (s : List Char) : List (List Char) :=
  let parts := splitOnChar '\n' s
  if parts.getLast? = some [] then parts.dropLast.map stripCR
  else parts.dropLast.map stripCR ++ parts.getLast?.toList

def rustLines (s : String) : List String :=
  (rustLinesChars s.data).map String.mk

/-! ## Data model -/

/-- Embedding of the Rust `ArfRecord` struct (one annotation entry). -/
structure ArfRecord where
  what : String
  why : String
  how : Option String
  backup : Option String
  outcome : Option String
  timestamp : String
  commit : Option String
  agent : Option String
deriving Repr, DecidableEq

/-- Embedding of the Rust `CommitInfo` struct built by `cmd_browse`. -/
structure CommitInfo where
  sha : String
  short_sha : String
  message : String
  records : List ArfRecord
deriving Repr, DecidableEq

/-! ## Changeset classifier (`App::update_diff`, lines 884–903)

The Rust code attaches a ratatui `Style` to each line; the five distinct
styles are named here by the spec's `LineKind` tags: green ↦ `Added`, red ↦
`Removed`, cyan ↦ `HunkHeader`, yellow (plain or bold) ↦ `FileHeader`, and the
default style ↦ `Plain`. -/

inductive LineKind where
  | Added
  | Removed
  | HunkHeader
  | FileHeader
  | Plain
deriving Repr, DecidableEq

/-- Embedding of the Rust `DiffLine` struct: the line's text plus its style,
the latter represented by its `LineKind` tag. -/
structure DiffLine where
  content : String
  kind : LineKind
deriving Repr, DecidableEq

/-- Per-line classification, in the exact order of the `if` chain in
`App::update_diff` (src/main.rs lines 885–897). -/
def classifyLine (line : String) : LineKind :=
  if startsWithChars line "+" && ! startsWithChars line "+++" then .Added
  else if startsWithChars line "-" && ! startsWithChars line "---" then .Removed
  else if startsWithChars line "@@" then .HunkHeader
  else if startsWithChars line "diff " || startsWithChars line "index " then .FileHeader
  else if startsWithChars line "+++" || startsWithChars line "---" then .FileHeader
  else .Plain

/-- Per-line classification in the priority order the spec states (§4.2):
`diff `/`index ` first, then `+++`/`---`, then `@@`, then `+`, then `-`,
else `Plain`. Written from the spec's words, to be compared with
`classifyLine` (which follows the source's check order). -/
def classifySpecOrder (line : String) : LineKind :=
  if startsWithChars line "diff " || startsWithChars line "index " then .FileHeader
  else if startsWithChars line "+++" || startsWithChars line "---" then .FileHeader
  else if startsWithChars line "@@" then .HunkHeader
  else if startsWithChars line "+" then .Added
  else if startsWithChars line "-" then .Removed
  else .Plain

/-! ## Commit catalog (`cmd_browse`, src/main.rs lines 907–976)

The annotation store is the directory listing of `.arf/records` in read
order: each element is a directory name (a hash-prefix key) together with the
`ArfRecord`s parsed from its `.toml` files, in read order. `none` models a
missing `.arf/records` directory. The git collaborators appear as inputs: the
`git log --oneline` text and the `git rev-parse` resolver. -/

/-- Split a character sequence at its first space, if any; the remainder is
kept verbatim (the behaviour of Rust's `splitn(2, ' ')`). -/
def splitFirstSpace : List Char → List Char × Option (List Char)
  | [] => ([], none)
  | a :: as =>
    if a = ' ' then ([], some as)
    else
      let r := splitFirstSpace as
      (a :: r.1, r.2)

/-- Embedding of `line.splitn(2, ' ')` followed by the
`(parts[0], parts[1])` / `(parts[0], "")` destructuring used on git-log
lines. -/
def splitn2 (line : String) : String × String :=
  match splitFirstSpace line.data with
  | (a, some rest) => (String.mk a, String.mk rest)
  | (a, none) => (String.mk a, "")

/-- The matching condition of `cmd_browse` (line 947):
`dir_name.starts_with(&short_sha) || short_sha.starts_with(&dir_name)`. -/
def groupMatches (short_sha dir_name : String) : Bool :=
  startsWithChars dir_name short_sha || startsWithChars short_sha dir_name

/-- The record-collection loop of `cmd_browse` (lines 944–961): every store
directory whose name matches the commit's short hash contributes its records,
in store order. -/
def browseRecords (short_sha : String) :
    List (String × List ArfRecord) → List ArfRecord
  | [] => []
  | g :: rest =>
    if groupMatches short_sha g.1 then g.2 ++ browseRecords short_sha rest
    else browseRecords short_sha rest

/-- One iteration of the `cmd_browse` commit loop (lines 922–971): parse the
git-log line, resolve the full sha (falling back to the short sha), and attach
the matching annotation records ([] when `.arf/records` does not exist). -/
def browseCommit (resolve : String → Option String)
    (store : Option (List (String × List ArfRecord))) (line : String) :
    CommitInfo :=
  let p := splitn2 line
  let full_sha := (resolve p.1).getD p.1
  let records := match store with
    | some entries => browseRecords p.1 entries
    | none => []
  { sha := full_sha, short_sha := p.1, message := p.2, records := records }

/-- The catalog `cmd_browse` builds from the whole `git log` output. -/
def buildCatalog (resolve : String → Option String)
    (store : Option (List (String × List ArfRecord))) (log : String) :
    List CommitInfo :=
  (rustLines log).map (browseCommit resolve store)

/-! ## Session state machine (`App`, src/main.rs lines 728–905) -/

/-- Embedding of the Rust `DiffMode` enum. -/
inductive DiffMode where
  | Hidden
  | Stat
  | Full
deriving Repr, DecidableEq

/-- Embedding of the Rust `Focus` enum. -/
inductive Focus where
  | Commits
  | Diff
deriving Repr, DecidableEq

/-- Embedding of the Rust `App` struct. `selected` embeds
`list_state.selected()` of the ratatui `ListState`. -/
structure App where
  commits : List CommitInfo
  selected : Option Nat
  diff_mode : DiffMode
  diff_lines : List DiffLine
  diff_scroll : Nat
  focus : Focus
  should_quit : Bool
deriving Repr, DecidableEq

/-- `App::new`: select the first commit when the list is non-empty, start in
`Stat` mode with focus on the commit list. -/
def App.new (commits : List CommitInfo) : App :=
  { commits := commits
    selected := if commits.isEmpty then none else some 0
    diff_mode := .Stat
    diff_lines := []
    diff_scroll := 0
    focus := .Commits
    should_quit := false }

/-- `App::selected_commit`. -/
def selectedCommit (app : App) : Option CommitInfo :=
  app.selected.bind fun i => app.commits[i]?

/-- The classified-line sequence `App::update_diff` leaves in `diff_lines`:
cleared when the mode is `Hidden` or no commit is selected, otherwise the
classification of the fetched text, where a failed `git show` invocation
(`fetch` returning `none`) is replaced by the sentinel text. -/
def newDiffLines (fetch : String → DiffMode → Option String) (app : App) :
    List DiffLine :=
  if app.diff_mode = DiffMode.Hidden then []
  else
    match selectedCommit app with
    | none => []
    | some commit =>
      let content := (fetch commit.sha app.diff_mode).getD "Failed to get diff"
      (rustLines content).map fun l => ⟨l, classifyLine l⟩

/-- `App::update_diff` (lines 860–904), with the `git show` subprocess passed
in as `fetch`. The method clears `diff_lines` and rebuilds it wholesale,
touching no other field. -/
def updateDiff (fetch : String → DiffMode → Option String) (app : App) : App :=
  { app with diff_lines := newDiffLines fetch app }

/-- `App::next` (lines 778–798). -/
def next (fetch : String → DiffMode → Option String) (app : App) : App :=
  match app.focus with
  | Focus.Commits =>
    if app.commits.isEmpty then app
    else
      let i := match app.selected with
        | some i => (i + 1) % app.commits.length
        | none => 0
      updateDiff fetch { app with selected := some i, diff_scroll := 0 }
  | Focus.Diff =>
    if app.diff_scroll < app.diff_lines.length - 1 then
      { app with diff_scroll := app.diff_scroll + 1 }
    else app

/-- `App::previous` (lines 800–824). -/
def previous (fetch : String → DiffMode → Option String) (app : App) : App :=
  match app.focus with
  | Focus.Commits =>
    if app.commits.isEmpty then app
    else
      let i := match app.selected with
        | some i => if i = 0 then app.commits.length - 1 else i - 1
        | none => 0
      updateDiff fetch { app with selected := some i, diff_scroll := 0 }
  | Focus.Diff =>
    { app with diff_scroll := app.diff_scroll - 1 }

/-- `App::toggle_focus` (lines 826–833). -/
def toggleFocus (app : App) : App :=
  if app.diff_mode ≠ DiffMode.Hidden then
    { app with
        focus := match app.focus with
          | Focus.Commits => Focus.Diff
          | Focus.Diff => Focus.Commits }
  else app

/-- The mode rotation inside `App::toggle_diff` (lines 836–840). -/
def cycleMode : DiffMode → DiffMode
  | .Hidden => .Stat
  | .Stat => .Full
  | .Full => .Hidden

/-- `App::toggle_diff` (lines 835–846). -/
def toggleDiff (fetch : String → DiffMode → Option String) (app : App) : App :=
  let app := { app with diff_mode := cycleMode app.diff_mode }
  let app :=
    if app.diff_mode = DiffMode.Hidden then { app with focus := Focus.Commits }
    else app
  updateDiff fetch { app with diff_scroll := 0 }

/-- `App::page_down` (lines 848–852). -/
def pageDown (app : App) : App :=
  if app.focus = Focus.Diff then
    { app with
        diff_scroll := min (app.diff_scroll + 10) (app.diff_lines.length - 1) }
  else app

/-- `App::page_up` (lines 854–858). -/
def pageUp (app : App) : App :=
  if app.focus = Focus.Diff then
    { app with diff_scroll := app.diff_scroll - 10 }
  else app

/-- The `q`/`Esc` handler in `cmd_browse`'s event loop (line 993). -/
def requestQuit (app : App) : App :=
  { app with should_quit := true }

/-- One dispatched input event: exactly the seven operations of the event loop
(lines 993–999). The diff-regenerating operations take the `git show` response
for that iteration as an arbitrary collaborator input. -/
inductive Step : App → App → Prop
  | next (fetch s) : Step s (next fetch s)
  | previous (fetch s) : Step s (previous fetch s)
  | toggleDiff (fetch s) : Step s (toggleDiff fetch s)
  | toggleFocus (s) : Step s (toggleFocus s)
  | pageDown (s) : Step s (pageDown s)
  | pageUp (s) : Step s (pageUp s)
  | requestQuit (s) : Step s (requestQuit s)

/-- Session states reachable by the event loop: `cmd_browse` starts from
`App::new` followed by one `update_diff`, then dispatches events. -/
inductive Reachable : App → Prop
  | init (fetch commits) : Reachable (updateDiff fetch (App.new commits))
  | step {s t} : Reachable s → Step s t → Reachable t

/-! ## The scroll-clamp invariant -/

/-- The clamp invariant of the spec: `0 ≤ scroll < max(1, len(diff_lines))`
(the lower bound is inherent to `Nat`). -/
def scrollInv (s : App) : Prop :=
  s.diff_scroll < max 1 s.diff_lines.length

/-- The adjacent-pair ascending-timestamp check the spec's invariant states
for a commit's attached entries. -/
def sortedByTs : List ArfRecord → Bool
  | [] => true
  | [_] => true
  | a :: b :: rest => tsLe a.timestamp b.timestamp && sortedByTs (b :: rest)

/-! ## Concrete collaborator responses used in the claim theorems -/

def recEarlier : ArfRecord :=
  { what := "create module", why := "initial step", how := none,
    backup := none, outcome := none, timestamp := "2024-01-01T00:00:00Z",
    commit := none, agent := none }

def recLater : ArfRecord :=
  { what := "extend module", why := "follow-up", how := none, backup := none,
    outcome := none, timestamp := "2024-02-02T00:00:00Z", commit := none,
    agent := none }

/-- A store whose single directory lists its two records latest-first. -/
def c1Store : List (String × List ArfRecord) :=
  [("abcdef12", [recLater, recEarlier])]

def c1Catalog : List CommitInfo :=
  buildCatalog (fun _ => some "abcdef1234567890") (some c1Store)
    "abcdef1 initial"

def c2Store : List (String × List ArfRecord) :=
  [("abcdef12", [recEarlier])]

def c2Resolve : String → Option String :=
  fun s => if s = "abcdef1" then some "abcdef1234567890" else none

/-- A resolver answering the full hash `abcdef1234567890` for the unrelated
display hash `zzzzzzz`. -/
def cxResolve : String → Option String :=
  fun s => if s = "zzzzzzz" then some "abcdef1234567890" else none

/-! ## Concrete session states used in the witnesses -/

def demoCommitA : CommitInfo :=
  { sha := "abcdef1234567890", short_sha := "abcdef1", message := "initial",
    records := [] }

def demoCommitB : CommitInfo :=
  { sha := "1234567890abcdef", short_sha := "1234567", message := "second",
    records := [] }

/-- A collaborator whose `git show` call always fails. -/
def demoFetch : String → DiffMode → Option String :=
  fun _ _ => none

/-- The state `cmd_browse` starts the event loop from, for a two-commit
catalog. -/
def demoApp : App :=
  updateDiff demoFetch (App.new [demoCommitA, demoCommitB])

/-- The initial state for an empty catalog. -/
def demoEmptyApp : App :=
  updateDiff demoFetch (App.new [])

def demoHiddenApp : App :=
  { commits := [demoCommitA], selected := some 0,
    diff_mode := DiffMode.Hidden, diff_lines := [], diff_scroll := 0,
    focus := Focus.Commits, should_quit := false }

def demoFullApp : App :=
  { commits := [demoCommitA], selected := some 0, diff_mode := DiffMode.Full,
    diff_lines := [], diff_scroll := 3, focus := Focus.Diff,
    should_quit := false }

def failApp : App :=
  { commits := [demoCommitA], selected := some 0, diff_mode := DiffMode.Stat,
    diff_lines := [], diff_scroll := 0, focus := Focus.Commits,
    should_quit := false }

/-! ## Prefix lemmas -/

theorem isPre_trans {p q r : List Char} (h1 : isPre p q = true)
    (h2 : isPre q r = true) : isPre p r = true := by
  induction p generalizing q r with
  | nil => rfl
  | cons a as ih =>
    cases q with
    | nil => simp [isPre] at h1
    | cons b bs =>
      cases r with
      | nil => simp [isPre] at h2
      | cons c cs =>
        simp [isPre] at h1 h2 ⊢
        exact ⟨h1.1.trans h2.1, ih h1.2 h2.2⟩

theorem isPre_total {r p q : List Char} (hp : isPre p r = true)
    (hq : isPre q r = true) : isPre p q = true ∨ isPre q p = true := by
  induction r generalizing p q with
  | nil =>
    cases p with
    | nil => exact Or.inl rfl
    | cons a as => simp [isPre] at hp
  | cons c cs ih =>
    cases p with
    | nil => exact Or.inl rfl
    | cons a as =>
      cases q with
      | nil => exact Or.inr rfl
      | cons b bs =>
        simp [isPre] at hp hq ⊢
        obtain ⟨ha, hp2⟩ := hp
        obtain ⟨hb, hq2⟩ := hq
        subst ha; subst hb
        simpa using ih hp2 hq2

theorem isPre_length {p q : List Char} (h : isPre p q = true) :
    p.length ≤ q.length := by
  induction p generalizing q with
  | nil => simp
  | cons a as ih =>
    cases q with
    | nil => simp [isPre] at h
    | cons b bs =>
      simp [isPre] at h ⊢
      exact ih h.2

theorem isPre_eq_take {p q : List Char} (h : isPre p q = true) :
    p = q.take p.length := by
  induction p generalizing q with
  | nil => simp
  | cons a as ih =>
    cases q with
    | nil => simp [isPre] at h
    | cons b bs =>
      simp [isPre] at h
      simp [List.take, h.1]
      exact ih h.2

/-- Two character sequences that cannot contain one another can never both be
prefixes of the same line. -/
theorem isPre_excl {p q r : List Char} (h1 : isPre p q = false)
    (h2 : isPre q p = false) (hp : isPre p r = true) (hq : isPre q r = true) :
    False := by
  rcases isPre_total hp hq with h | h
  · rw [h1] at h; cases h
  · rw [h2] at h; cases h

/-! ## Frame lemmas -/

theorem isPre_cast {p q l : List Char} (hpq : isPre p q = true)
    (h : isPre p l = false) : isPre q l = false := by
  cases hq : isPre q l
  · rfl
  · rw [isPre_trans hpq hq] at h; cases h

theorem isPre_excl_of {p q : List Char} (l : List Char) (h1 : isPre p q = false)
    (h2 : isPre q p = false) (hp : isPre p l = true) : isPre q l = false := by
  cases h : isPre q l
  · rfl
  · exact (isPre_excl h1 h2 hp h).elim

theorem newDiffLines_noSel (fetch : String → DiffMode → Option String)
    (s : App) (h : s.selected = none) : newDiffLines fetch s = [] := by
  unfold newDiffLines selectedCommit
  rw [h]
  simp

theorem next_commits (fetch : String → DiffMode → Option String) (s : App) :
    (next fetch s).commits = s.commits := by
  unfold next
  cases hf : s.focus <;> dsimp only <;> split <;> rfl

theorem next_focus (fetch : String → DiffMode → Option String) (s : App) :
    (next fetch s).focus = s.focus := by
  unfold next
  cases hf : s.focus <;> dsimp only <;> split <;> first | rfl | exact hf

theorem previous_commits (fetch : String → DiffMode → Option String) (s : App) :
    (previous fetch s).commits = s.commits := by
  unfold previous
  cases hf : s.focus <;> dsimp only
  all_goals first | rfl | (split <;> rfl)

theorem toggleFocus_commits (s : App) :
    (toggleFocus s).commits = s.commits := by
  unfold toggleFocus
  split <;> rfl

theorem toggleDiff_commits (fetch : String → DiffMode → Option String)
    (s : App) : (toggleDiff fetch s).commits = s.commits := by
  unfold toggleDiff
  dsimp only
  split <;> rfl

theorem toggleDiff_mode (fetch : String → DiffMode → Option String) (s : App) :
    (toggleDiff fetch s).diff_mode = cycleMode s.diff_mode := by
  unfold toggleDiff
  dsimp only
  split <;> rfl

theorem toggleDiff_selected (fetch : String → DiffMode → Option String)
    (s : App) : (toggleDiff fetch s).selected = s.selected := by
  unfold toggleDiff
  dsimp only
  split <;> rfl

theorem toggleDiff_scroll (fetch : String → DiffMode → Option String)
    (s : App) : (toggleDiff fetch s).diff_scroll = 0 := by
  unfold toggleDiff
  dsimp only
  split <;> rfl

theorem pageDown_commits (s : App) : (pageDown s).commits = s.commits := by
  unfold pageDown
  split <;> rfl

theorem pageUp_commits (s : App) : (pageUp s).commits = s.commits := by
  unfold pageUp
  split <;> rfl

theorem step_commits {s t : App} (h : Step s t) : t.commits = s.commits := by
  cases h with
  | next fetch s => exact next_commits fetch s
  | previous fetch s => exact previous_commits fetch s
  | toggleDiff fetch s => exact toggleDiff_commits fetch s
  | toggleFocus s => exact toggleFocus_commits s
  | pageDown s => exact pageDown_commits s
  | pageUp s => exact pageUp_commits s
  | requestQuit s => rfl

theorem scrollInv_zero (s : App) (h : s.diff_scroll = 0) : scrollInv s := by
  unfold scrollInv
  rw [h]
  exact Nat.lt_of_lt_of_le Nat.one_pos (le_max_left _ _)

theorem scrollInv_next (fetch : String → DiffMode → Option String) (s : App)
    (h : scrollInv s) : scrollInv (next fetch s) := by
  unfold next
  cases hf : s.focus <;> dsimp only
  · split
    · exact h
    · exact scrollInv_zero _ rfl
  · split
    · rename_i h'
      unfold scrollInv at h ⊢
      dsimp only
      have hm := le_max_right 1 s.diff_lines.length
      omega
    · exact h

theorem scrollInv_previous (fetch : String → DiffMode → Option String)
    (s : App) (h : scrollInv s) : scrollInv (previous fetch s) := by
  unfold previous
  cases hf : s.focus <;> dsimp only
  · split
    · exact h
    · exact scrollInv_zero _ rfl
  · unfold scrollInv at h ⊢
    dsimp only
    omega

theorem scrollInv_toggleDiff (fetch : String → DiffMode → Option String)
    (s : App) : scrollInv (toggleDiff fetch s) :=
  scrollInv_zero _ (toggleDiff_scroll fetch s)

theorem scrollInv_toggleFocus (s : App) (h : scrollInv s) :
    scrollInv (toggleFocus s) := by
  unfold toggleFocus
  split <;> exact h

theorem scrollInv_pageDown (s : App) (h : scrollInv s) :
    scrollInv (pageDown s) := by
  unfold pageDown
  split
  · unfold scrollInv
    dsimp only
    have h1 := min_le_right (s.diff_scroll + 10) (s.diff_lines.length - 1)
    have h2 := le_max_right 1 s.diff_lines.length
    have h3 := le_max_left 1 s.diff_lines.length
    omega
  · exact h

theorem scrollInv_pageUp (s : App) (h : scrollInv s) : scrollInv (pageUp s) := by
  unfold pageUp
  split
  · unfold scrollInv at h ⊢
    dsimp only
    omega
  · exact h

theorem scrollInv_requestQuit (s : App) (h : scrollInv s) :
    scrollInv (requestQuit s) := h

theorem reachable_scrollInv {s : App} (h : Reachable s) : scrollInv s := by
  induction h with
  | init fetch commits => exact scrollInv_zero _ rfl
  | step hs hstep ih =>
    cases hstep with
    | next fetch s => exact scrollInv_next _ _ ih
    | previous fetch s => exact scrollInv_previous _ _ ih
    | toggleDiff fetch s => exact scrollInv_toggleDiff _ _
    | toggleFocus s => exact scrollInv_toggleFocus _ ih
    | pageDown s => exact scrollInv_pageDown _ ih
    | pageUp s => exact scrollInv_pageUp _ ih
    | requestQuit s => exact scrollInv_requestQuit _ ih

/-! ## Circular selection lemmas -/

theorem next_commits_eq (fetch : String → DiffMode → Option String) (s : App)
    (i : Nat) (hf : s.focus = Focus.Commits) (hne : s.commits ≠ [])
    (hi : s.selected = some i) :
    next fetch s =
      updateDiff fetch
        { s with selected := some ((i + 1) % s.commits.length),
                 diff_scroll := 0 } := by
  unfold next
  rw [hf]
  dsimp only
  rw [hi]
  dsimp only
  rw [if_neg]
  simpa using hne

theorem previous_commits_eq (fetch : String → DiffMode → Option String)
    (s : App) (i : Nat) (hf : s.focus = Focus.Commits) (hne : s.commits ≠ [])
    (hi : s.selected = some i) :
    previous fetch s =
      updateDiff fetch
        { s with
            selected := some (if i = 0 then s.commits.length - 1 else i - 1),
            diff_scroll := 0 } := by
  unfold previous
  rw [hf]
  dsimp only
  rw [hi]
  dsimp only
  rw [if_neg]
  simpa using hne

theorem next_iterate_selected (fetch : String → DiffMode → Option String)
    (s : App) (i : Nat) (hf : s.focus = Focus.Commits) (hne : s.commits ≠ [])
    (hi : s.selected = some i) (hlt : i < s.commits.length) :
    ∀ k, ((next fetch)^[k] s).commits = s.commits ∧
      ((next fetch)^[k] s).focus = Focus.Commits ∧
      ((next fetch)^[k] s).selected = some ((i + k) % s.commits.length) := by
  intro k
  induction k with
  | zero =>
    refine ⟨rfl, hf, ?_⟩
    simp only [Function.iterate_zero_apply]
    rw [hi, Nat.add_zero, Nat.mod_eq_of_lt hlt]
  | succ k ih =>
    obtain ⟨hc, hfo, hse⟩ := ih
    rw [Function.iterate_succ_apply']
    have hne' : ((next fetch)^[k] s).commits ≠ [] := by rw [hc]; exact hne
    refine ⟨?_, ?_, ?_⟩
    · rw [next_commits, hc]
    · rw [next_focus, hfo]
    · rw [next_commits_eq fetch _ _ hfo hne' hse]
      show some _ = _
      rw [hc, Nat.mod_add_mod, Nat.add_assoc]

/-! ## The empty-catalog states -/

theorem next_empty_noop (fetch : String → DiffMode → Option String) (s : App)
    (he : s.commits = []) (hl : s.diff_lines = []) (hs : s.diff_scroll = 0) :
    next fetch s = s := by
  unfold next
  cases hf : s.focus <;> dsimp only
  · rw [if_pos]
    simp [he]
  · rw [if_neg]
    rw [hl, hs]
    simp

theorem previous_empty_noop (fetch : String → DiffMode → Option String)
    (s : App) (he : s.commits = []) (hs : s.diff_scroll = 0) :
    previous fetch s = s := by
  unfold previous
  cases hf : s.focus <;> dsimp only
  · rw [if_pos]
    simp [he]
  · have h1 : s.diff_scroll - 1 = s.diff_scroll := by omega
    rw [h1, ← hf]

theorem reachable_empty {s : App} (h : Reachable s) (he : s.commits = []) :
    s.selected = none ∧ s.diff_lines = [] ∧ s.diff_scroll = 0 := by
  induction h with
  | init fetch commits =>
    have hc : commits = [] := by simpa [updateDiff, App.new] using he
    subst hc
    refine ⟨rfl, ?_, rfl⟩
    exact newDiffLines_noSel fetch (App.new []) (by simp [App.new])
  | step hs hstep ih =>
    rename_i s' t
    have hsc : s'.commits = [] := by rw [← step_commits hstep]; exact he
    obtain ⟨h1, h2, h3⟩ := ih hsc
    cases hstep with
    | next fetch s' =>
      rw [next_empty_noop fetch _ hsc h2 h3]
      exact ⟨h1, h2, h3⟩
    | previous fetch s' =>
      rw [previous_empty_noop fetch _ hsc h3]
      exact ⟨h1, h2, h3⟩
    | toggleDiff fetch s' =>
      refine ⟨by rw [toggleDiff_selected]; exact h1, ?_, toggleDiff_scroll fetch _⟩
      unfold toggleDiff
      dsimp only
      split <;> exact newDiffLines_noSel fetch _ h1
    | toggleFocus s' =>
      unfold toggleFocus
      split <;> exact ⟨h1, h2, h3⟩
    | pageDown s' =>
      unfold pageDown
      split
      · exact ⟨h1, h2, by rw [h2, h3]; rfl⟩
      · exact ⟨h1, h2, h3⟩
    | pageUp s' =>
      unfold pageUp
      split
      · exact ⟨h1, h2, by show s'.diff_scroll - 10 = 0; omega⟩
      · exact ⟨h1, h2, h3⟩
    | requestQuit s' => exact ⟨h1, h2, h3⟩

/-! ## Claim theorems -/

/-- C1: the claim states that in the catalog built by `cmd_browse` every
commit's attached annotation entries are sorted ascending by timestamp. The
code does not sort (unlike `cmd_graph` and `cmd_diff`): a store whose
directory lists its records latest-first yields a catalog whose attached
records stay latest-first, so the adjacent-pair ordering fails. -/
theorem browse_records_not_sorted :
    c1Catalog =
      [{ sha := "abcdef1234567890", short_sha := "abcdef1",
         message := "initial", records := [recLater, recEarlier] }] ∧
    ¬ ∀ c ∈ c1Catalog, sortedByTs c.records = true := by
  constructor
  · decide
  · decide

/-- C2 counterexample: a stored group key that is a prefix of the commit's
full hash but unrelated to its display hash does not attach, refuting the
claimed biconditional as stated. The matching in `cmd_browse` compares the
group key with the display hash only, never with the full hash. -/
theorem browse_match_counterexample :
    startsWithChars "abcdef1234567890" "abcdef12" = true ∧
    (browseCommit cxResolve (some c2Store) "zzzzzzz fix build").sha
      = "abcdef1234567890" ∧
    (browseCommit cxResolve (some c2Store) "zzzzzzz fix build").short_sha
      = "zzzzzzz" ∧
    (browseCommit cxResolve (some c2Store) "zzzzzzz fix build").records
      = [] := by
  refine ⟨by decide, by decide, by decide, by decide⟩

/-- C2 (amended): assuming the display hash is a prefix of the full hash (as
git guarantees), the code's matching condition is equivalent to the claimed
rule; the claim's concrete instance attaches, and no commit with a different
7-character display hash gets the group keyed `abcdef12`. -/
theorem browse_match_rule :
    (∀ key display full : String, startsWithChars full display = true →
      (groupMatches display key = true ↔
        (startsWithChars full key = true ∨
          startsWithChars key display = true))) ∧
    (browseCommit c2Resolve (some c2Store) "abcdef1 add feature").records
      = [recEarlier] ∧
    (browseCommit c2Resolve (some c2Store) "abcdef1 add feature").sha
      = "abcdef1234567890" ∧
    (∀ d : String, d.data.length = 7 → d ≠ "abcdef1" →
      browseRecords d c2Store = []) := by
  refine ⟨?_, by decide, by decide, ?_⟩
  · intro key display full hdf
    unfold startsWithChars at hdf
    unfold groupMatches startsWithChars
    simp only [Bool.or_eq_true]
    constructor
    · rintro (h1 | h1)
      · exact Or.inr h1
      · exact Or.inl (isPre_trans h1 hdf)
    · rintro (h1 | h1)
      · rcases isPre_total h1 hdf with h2 | h2
        · exact Or.inr h2
        · exact Or.inl h2
      · exact Or.inl h1
  · intro d h7 hne
    have hkey : isPre "abcdef12".data d.data = false := by
      cases hk : isPre "abcdef12".data d.data
      · rfl
      · have hlen := isPre_length hk
        have h8 : ("abcdef12".data).length = 8 := by decide
        rw [h7, h8] at hlen
        omega
    have hdk : isPre d.data "abcdef12".data = false := by
      cases hk : isPre d.data "abcdef12".data
      · rfl
      · have hdata := isPre_eq_take hk
        rw [h7] at hdata
        have hd7 : d.data = "abcdef1".data := by rw [hdata]; decide
        exact absurd (congrArg String.mk hd7 : d = "abcdef1") hne
    have hgm : groupMatches d "abcdef12" = false := by
      unfold groupMatches startsWithChars
      rw [hkey, hdk]
      rfl
    simp [c2Store, browseRecords, hgm]

/-- C10: `cmd_browse` attaches the records of every matching store directory,
concatenated in store order — not the records of at most one matching group.
The second conjunct shows two simultaneously matching groups both
contributing. -/
theorem browse_attaches_every_match :
    (∀ (short_sha : String) (store : List (String × List ArfRecord)),
      browseRecords short_sha store =
        ((store.filter fun g => groupMatches short_sha g.1).map
          fun g => g.2).flatten) ∧
    browseRecords "abcdef1" [("abcdef1", [recEarlier]), ("abcdef12", [recLater])]
      = [recEarlier, recLater] := by
  constructor
  · intro short_sha store
    induction store with
    | nil => rfl
    | cons g rest ih =>
      unfold browseRecords
      rw [List.filter_cons]
      by_cases h : groupMatches short_sha g.1 = true
      · simp only [h, if_pos, List.map_cons, List.flatten_cons]
        rw [ih]
      · rw [Bool.not_eq_true] at h
        simp only [h, Bool.false_eq_true, if_false]
        rw [ih]
  · decide

/-- C3: the classifier is a pure per-line function whose result agrees with
the spec's priority-ordered rule on every line, and the spec's sample input
classifies to [FileHeader, Added, Removed, HunkHeader]. -/
theorem classifier_rule :
    (∀ line : String, classifyLine line = classifySpecOrder line) ∧
    (rustLines "+++ b/a.txt\n+added\n-removed\n@@ -1,1 +1,1 @@\n").map
        classifyLine
      = [LineKind.FileHeader, LineKind.Added, LineKind.Removed,
         LineKind.HunkHeader] := by
  refine ⟨?_, by decide⟩
  intro l
  unfold classifyLine classifySpecOrder startsWithChars
  by_cases hp : isPre "+".data l.data = true
  · have hm : isPre "-".data l.data = false :=
      isPre_excl_of _ (by decide) (by decide) hp
    have hat : isPre "@@".data l.data = false :=
      isPre_excl_of _ (by decide) (by decide) hp
    have hd : isPre "diff ".data l.data = false :=
      isPre_excl_of _ (by decide) (by decide) hp
    have hix : isPre "index ".data l.data = false :=
      isPre_excl_of _ (by decide) (by decide) hp
    have hm3 : isPre "---".data l.data = false :=
      isPre_excl_of _ (by decide) (by decide) hp
    by_cases h3 : isPre "+++".data l.data = true
    · simp [hp, h3, hm, hat, hd, hix, hm3]
    · rw [Bool.not_eq_true] at h3
      simp [hp, h3, hm, hat, hd, hix, hm3]
  · rw [Bool.not_eq_true] at hp
    have h3 : isPre "+++".data l.data = false := isPre_cast (by decide) hp
    by_cases hm : isPre "-".data l.data = true
    · have hat : isPre "@@".data l.data = false :=
        isPre_excl_of _ (by decide) (by decide) hm
      have hd : isPre "diff ".data l.data = false :=
        isPre_excl_of _ (by decide) (by decide) hm
      have hix : isPre "index ".data l.data = false :=
        isPre_excl_of _ (by decide) (by decide) hm
      by_cases hm3 : isPre "---".data l.data = true
      · simp [hp, h3, hm, hat, hd, hix, hm3]
      · rw [Bool.not_eq_true] at hm3
        simp [hp, h3, hm, hat, hd, hix, hm3]
    · rw [Bool.not_eq_true] at hm
      have hm3 : isPre "---".data l.data = false := isPre_cast (by decide) hm
      by_cases hat : isPre "@@".data l.data = true
      · have hd : isPre "diff ".data l.data = false :=
          isPre_excl_of _ (by decide) (by decide) hat
        have hix : isPre "index ".data l.data = false :=
          isPre_excl_of _ (by decide) (by decide) hat
        simp [hp, h3, hm, hat, hd, hix, hm3]
      · rw [Bool.not_eq_true] at hat
        by_cases hd : isPre "diff ".data l.data = true
        · have hix : isPre "index ".data l.data = false :=
            isPre_excl_of _ (by decide) (by decide) hd
          simp [hp, h3, hm, hat, hd, hix, hm3]
        · rw [Bool.not_eq_true] at hd
          by_cases hix : isPre "index ".data l.data = true
          · simp [hp, h3, hm, hat, hd, hix, hm3]
          · rw [Bool.not_eq_true] at hix
            simp [hp, h3, hm, hat, hd, hix, hm3]

/-- C4: when the changeset request for the selected commit fails, the rebuilt
classified-line sequence is exactly the single explanatory `Plain` line, and
hence non-empty — the failure never escapes `update_diff`. -/
theorem update_diff_failure (fetch : String → DiffMode → Option String)
    (s : App) (c : CommitInfo) (hm : s.diff_mode ≠ DiffMode.Hidden)
    (hc : selectedCommit s = some c) (hf : fetch c.sha s.diff_mode = none) :
    (updateDiff fetch s).diff_lines =
      [{ content := "Failed to get diff", kind := LineKind.Plain }] ∧
    (updateDiff fetch s).diff_lines ≠ [] := by
  have hlines : newDiffLines fetch s
      = [{ content := "Failed to get diff", kind := LineKind.Plain }] := by
    unfold newDiffLines
    rw [if_neg hm, hc]
    dsimp only
    rw [hf]
    decide
  refine ⟨hlines, ?_⟩
  intro hbad
  have hcontra := hlines.symm.trans hbad
  simp at hcontra

theorem update_diff_failure_witness :
    (updateDiff demoFetch failApp).diff_lines =
      [{ content := "Failed to get diff", kind := LineKind.Plain }] :=
  (update_diff_failure demoFetch failApp demoCommitA (by decide)
    (by decide) rfl).1

/-- C5: with focus on the commit list and a valid selection, `next` advances
the selection to (i+1) mod count and `previous` wraps downward from 0 to
count-1; both reset the scroll offset to 0 and rebuild the diff lines for the
new selection; `next` applied count times returns to the starting index. -/
theorem select_circular (fetch : String → DiffMode → Option String) (s : App)
    (i : Nat) (hf : s.focus = Focus.Commits) (hne : s.commits ≠ [])
    (hi : s.selected = some i) (hlt : i < s.commits.length) :
    (next fetch s).selected = some ((i + 1) % s.commits.length) ∧
    (previous fetch s).selected =
      some (if i = 0 then s.commits.length - 1 else i - 1) ∧
    (next fetch s).diff_scroll = 0 ∧
    (previous fetch s).diff_scroll = 0 ∧
    next fetch s = updateDiff fetch
      { s with selected := some ((i + 1) % s.commits.length),
               diff_scroll := 0 } ∧
    previous fetch s = updateDiff fetch
      { s with
          selected := some (if i = 0 then s.commits.length - 1 else i - 1),
          diff_scroll := 0 } ∧
    ((next fetch)^[s.commits.length] s).selected = some i := by
  have hn := next_commits_eq fetch s i hf hne hi
  have hp := previous_commits_eq fetch s i hf hne hi
  refine ⟨?_, ?_, ?_, ?_, hn, hp, ?_⟩
  · rw [hn]; rfl
  · rw [hp]; rfl
  · rw [hn]; rfl
  · rw [hp]; rfl
  · have hiter :=
      (next_iterate_selected fetch s i hf hne hi hlt s.commits.length).2.2
    rw [hiter, Nat.add_mod_right, Nat.mod_eq_of_lt hlt]

theorem select_circular_witness :
    (next demoFetch demoApp).selected = some 1 ∧
    ((next demoFetch)^[2] demoApp).selected = some 0 := by
  have h := select_circular demoFetch demoApp 0 rfl (by decide) rfl (by decide)
  exact ⟨by simpa using h.1, by simpa using h.2.2.2.2.2.2⟩

/-- C6: after any of the seven session operations from a reachable state, the
scroll offset satisfies the clamp invariant
`0 ≤ scroll < max(1, len(diff_lines))`. -/
theorem scroll_clamped (s t : App) (h : Reachable s) (hstep : Step s t) :
    0 ≤ t.diff_scroll ∧ t.diff_scroll < max 1 t.diff_lines.length :=
  ⟨Nat.zero_le _, reachable_scrollInv (h.step hstep)⟩

theorem scroll_clamped_witness :
    0 ≤ (requestQuit demoApp).diff_scroll ∧
    (requestQuit demoApp).diff_scroll <
      max 1 (requestQuit demoApp).diff_lines.length :=
  scroll_clamped demoApp (requestQuit demoApp)
    (Reachable.init demoFetch [demoCommitA, demoCommitB])
    (Step.requestQuit demoApp)

/-- C7: `toggle_diff` rotates the mode Hidden → Stat → Full → Hidden (so three
applications restore it), always resets the scroll to 0 and rebuilds the
classified lines for the current selection, and forces focus back to the
commit list whenever the resulting mode is Hidden. -/
theorem cycle_diff_mode_spec (fetch : String → DiffMode → Option String)
    (s : App) :
    (toggleDiff fetch s).diff_mode = cycleMode s.diff_mode ∧
    ((toggleDiff fetch)^[3] s).diff_mode = s.diff_mode ∧
    (toggleDiff fetch s).diff_scroll = 0 ∧
    toggleDiff fetch s = updateDiff fetch
      { s with diff_mode := cycleMode s.diff_mode,
               focus := if cycleMode s.diff_mode = DiffMode.Hidden
                 then Focus.Commits else s.focus,
               diff_scroll := 0 } ∧
    ((toggleDiff fetch s).diff_mode = DiffMode.Hidden →
      (toggleDiff fetch s).focus = Focus.Commits) := by
  refine ⟨toggleDiff_mode fetch s, ?_, toggleDiff_scroll fetch s, ?_, ?_⟩
  · have e3 : (toggleDiff fetch)^[3] s
        = toggleDiff fetch ((toggleDiff fetch)^[2] s) :=
      Function.iterate_succ_apply' _ _ _
    have e2 : (toggleDiff fetch)^[2] s
        = toggleDiff fetch ((toggleDiff fetch)^[1] s) :=
      Function.iterate_succ_apply' _ _ _
    have e1 : (toggleDiff fetch)^[1] s = toggleDiff fetch s := rfl
    rw [e3, e2, e1, toggleDiff_mode, toggleDiff_mode, toggleDiff_mode]
    cases s.diff_mode <;> rfl
  · unfold toggleDiff
    dsimp only
    split
    · rfl
    · rfl
  · intro hHid
    rw [toggleDiff_mode] at hHid
    unfold toggleDiff
    dsimp only
    rw [if_pos hHid]
    rfl

theorem cycle_diff_mode_witness :
    (toggleDiff demoFetch demoFullApp).diff_mode = DiffMode.Hidden ∧
    (toggleDiff demoFetch demoFullApp).focus = Focus.Commits ∧
    ((toggleDiff demoFetch)^[3] demoFullApp).diff_mode = DiffMode.Full := by
  have h := cycle_diff_mode_spec demoFetch demoFullApp
  refine ⟨?_, ?_, ?_⟩
  · rw [h.1]; rfl
  · exact h.2.2.2.2 (by rw [h.1]; rfl)
  · rw [h.2.1]; rfl

/-- C8: `toggle_focus` swaps the focus between the commit list and the diff
pane when the diff pane is visible, and is a complete no-op (the whole state
unchanged) when DiffMode = Hidden. -/
theorem toggle_focus_spec (s : App) :
    (s.diff_mode ≠ DiffMode.Hidden →
      toggleFocus s =
        { s with
            focus := match s.focus with
              | Focus.Commits => Focus.Diff
              | Focus.Diff => Focus.Commits }) ∧
    (s.diff_mode = DiffMode.Hidden → toggleFocus s = s) := by
  constructor
  · intro h
    unfold toggleFocus
    rw [if_pos h]
  · intro h
    unfold toggleFocus
    rw [if_neg (fun hcon => hcon h)]

theorem toggle_focus_spec_witness :
    toggleFocus demoApp = { demoApp with focus := Focus.Diff } ∧
    toggleFocus demoHiddenApp = demoHiddenApp := by
  constructor
  · exact (toggle_focus_spec demoApp).1 (by decide)
  · exact (toggle_focus_spec demoHiddenApp).2 rfl

/-- C9: on any reachable state whose commit sequence is empty, `next` and
`previous` are exact no-ops and the selection remains `none` (all operations
being total Lean functions, none can panic). -/
theorem empty_catalog_noop (fetch : String → DiffMode → Option String)
    (s : App) (h : Reachable s) (he : s.commits = []) :
    next fetch s = s ∧ previous fetch s = s ∧ s.selected = none := by
  obtain ⟨h1, h2, h3⟩ := reachable_empty h he
  exact ⟨next_empty_noop fetch s he h2 h3,
    previous_empty_noop fetch s he h3, h1⟩

theorem empty_catalog_noop_witness :
    next demoFetch demoEmptyApp = demoEmptyApp ∧
    previous demoFetch demoEmptyApp = demoEmptyApp ∧
    demoEmptyApp.selected = none :=
  empty_catalog_noop demoFetch demoEmptyApp (Reachable.init demoFetch []) rfl

theorem browse_match_rule_witness :
    groupMatches "abcdef1" "abcdef12" = true ∧
    browseRecords "zzzzzzz" c2Store = [] := by
  constructor
  · exact (browse_match_rule.1 "abcdef12" "abcdef1" "abcdef1234567890"
      (by decide)).mpr (Or.inl (by decide))
  · exact browse_match_rule.2.2.2 "zzzzzzz" (by decide) (by decide)

end Arf
